import Mathlib

/-!
# Verification of the `intro-to-eeg` course repository

The repository is a sequence of tutorial chapters (Python notebooks and their
mirrored scripts) that chain calls into the MNE-Python EEG-analysis library:
loading a raw recording, filtering, ICA artifact correction, re-referencing,
epoching, baseline correction, peak-to-peak rejection, averaging, and weighted
combination of averages.

The numeric operations the chapters invoke (`Epochs.average`, `combine_evoked`,
`Epochs.drop_bad`, `merge_events`, `Epochs.apply_baseline`) live in the external
MNE library, whose code is not part of the repository; they are modelled here
from the specification's description of them, over exact rationals.  The
structure of the chapter scripts themselves (the order of the processing steps,
the control flow, the per-participant accumulation loop) is transcribed
directly from the sources.
-/

namespace IntroToEEG

/-- A channels × timepoints data array (one epoch, or one evoked). -/
abbrev Mat : Type := List (List ℚ)

/-- Entry of a matrix at channel `i`, timepoint `j` (0 outside the array). -/
def entry (m : Mat) (i j : ℕ) : ℚ := (m.getD i []).getD j 0

/-- `m` has `c` channel rows, each with `t` timepoints. -/
def HasShape (m : Mat) (c t : ℕ) : Prop :=
  m.length = c ∧ ∀ row ∈ m, row.length = t

instance (m : Mat) (c t : ℕ) : Decidable (HasShape m c t) := by
  unfold HasShape; infer_instance

/-- Pointwise sum of two data arrays (numpy `+` on equal-shaped arrays). -/
def matAdd (a b : Mat) : Mat :=
  List.zipWith (fun r s => List.zipWith (fun x y => x + y) r s) a b

/-- Pointwise scaling of a data array (numpy `*` with a scalar). -/
def matSMul (q : ℚ) (a : Mat) : Mat :=
  a.map fun row => row.map fun x => q * x

/-- Modelled from the spec: `Epochs.average()` (MNE library code, not in the
repository) — "the per-channel, per-timepoint mean across a set of windows",
reducing trials × channels × timepoints to channels × timepoints.  Computed as
numpy does: the pointwise sum over windows, scaled by one over the number of
windows. -/
def average (xs : List Mat) : Mat :=
  match xs with
  | [] => []
  | w :: ws => matSMul (1 / ((ws.length : ℚ) + 1)) (ws.foldl matAdd w)

lemma length_matAdd (a b : Mat) : (matAdd a b).length = min a.length b.length := by
  simp [matAdd]

lemma matAdd_hasShape {a b : Mat} {c t : ℕ} (ha : HasShape a c t)
    (hb : HasShape b c t) : HasShape (matAdd a b) c t := by
  obtain ⟨hal, har⟩ := ha
  obtain ⟨hbl, hbr⟩ := hb
  refine ⟨by simp [length_matAdd, hal, hbl], ?_⟩
  intro row hrow
  rw [List.mem_iff_getElem] at hrow
  obtain ⟨i, hi, hrow⟩ := hrow
  simp only [matAdd] at hrow
  rw [List.getElem_zipWith] at hrow
  have hia : i < a.length := by
    simp [length_matAdd] at hi; omega
  have hib : i < b.length := by
    simp [length_matAdd] at hi; omega
  have h1 : a[i].length = t := har _ (List.getElem_mem hia)
  have h2 : b[i].length = t := hbr _ (List.getElem_mem hib)
  rw [← hrow]
  simp [h1, h2]

lemma matSMul_hasShape {a : Mat} {c t : ℕ} (q : ℚ) (ha : HasShape a c t) :
    HasShape (matSMul q a) c t := by
  obtain ⟨hal, har⟩ := ha
  refine ⟨by simp [matSMul, hal], ?_⟩
  intro row hrow
  simp only [matSMul, List.mem_map] at hrow
  obtain ⟨r, hr, hrow⟩ := hrow
  rw [← hrow]
  simpa using har r hr

lemma entry_matAdd {a b : Mat} {c t i j : ℕ} (ha : HasShape a c t)
    (hb : HasShape b c t) (hi : i < c) (hj : j < t) :
    entry (matAdd a b) i j = entry a i j + entry b i j := by
  obtain ⟨hal, har⟩ := ha
  obtain ⟨hbl, hbr⟩ := hb
  have hia : i < a.length := by omega
  have hib : i < b.length := by omega
  have hiz : i < (matAdd a b).length := by
    simp [length_matAdd]; omega
  have h1 : a[i].length = t := har _ (List.getElem_mem hia)
  have h2 : b[i].length = t := hbr _ (List.getElem_mem hib)
  unfold entry
  rw [List.getD_eq_getElem _ _ hiz, List.getD_eq_getElem _ _ hia,
    List.getD_eq_getElem _ _ hib]
  show ((matAdd a b)[i].getD j 0) = _
  have : (matAdd a b)[i] = List.zipWith (fun x y => x + y) a[i] b[i] := by
    simp [matAdd]
  rw [this]
  have hja : j < a[i].length := by omega
  have hjb : j < b[i].length := by omega
  have hjz : j < (List.zipWith (fun x y : ℚ => x + y) a[i] b[i]).length := by
    simp; omega
  rw [List.getD_eq_getElem _ _ hjz, List.getD_eq_getElem _ _ hja,
    List.getD_eq_getElem _ _ hjb, List.getElem_zipWith]

lemma entry_matSMul {a : Mat} {c t i j : ℕ} (q : ℚ) (ha : HasShape a c t)
    (hi : i < c) (hj : j < t) :
    entry (matSMul q a) i j = q * entry a i j := by
  obtain ⟨hal, har⟩ := ha
  have hia : i < a.length := by omega
  have hiz : i < (matSMul q a).length := by simp [matSMul]; omega
  have h1 : a[i].length = t := har _ (List.getElem_mem hia)
  unfold entry
  rw [List.getD_eq_getElem _ _ hiz, List.getD_eq_getElem _ _ hia]
  have : (matSMul q a)[i] = a[i].map fun x => q * x := by
    simp [matSMul]
  rw [this]
  have hja : j < a[i].length := by omega
  have hjm : j < (a[i].map fun x => q * x).length := by simp; omega
  rw [List.getD_eq_getElem _ _ hjm, List.getD_eq_getElem _ _ hja,
    List.getElem_map]

lemma foldl_matAdd_hasShape {c t : ℕ} (ws : List Mat) (w : Mat)
    (hw : HasShape w c t) (hws : ∀ v ∈ ws, HasShape v c t) :
    HasShape (ws.foldl matAdd w) c t := by
  induction ws generalizing w with
  | nil => exact hw
  | cons v vs ih =>
    exact ih _ (matAdd_hasShape hw (hws v (List.mem_cons_self v vs)))
      fun u hu => hws u (List.mem_cons_of_mem v hu)

lemma entry_foldl_matAdd {c t i j : ℕ} (ws : List Mat) (w : Mat)
    (hw : HasShape w c t) (hws : ∀ v ∈ ws, HasShape v c t)
    (hi : i < c) (hj : j < t) :
    entry (ws.foldl matAdd w) i j
      = entry w i j + (ws.map fun v => entry v i j).sum := by
  induction ws generalizing w with
  | nil => simp
  | cons v vs ih =>
    have hv : HasShape v c t := hws v (List.mem_cons_self v vs)
    have hvs : ∀ u ∈ vs, HasShape u c t :=
      fun u hu => hws u (List.mem_cons_of_mem v hu)
    rw [List.foldl_cons, ih _ (matAdd_hasShape hw hv) hvs,
      entry_matAdd hw hv hi hj]
    simp only [List.map_cons, List.sum_cons]
    ring

/-- **C1.** Averaging a non-empty set of epochs (windows × channels ×
timepoints) returns an evoked of shape channels × timepoints whose entry at
channel `i` and timepoint `j` is the arithmetic mean over all windows of the
value at `(i, j)`. -/
theorem average_is_pointwise_mean (xs : List Mat) (c t : ℕ) (hne : xs ≠ [])
    (hsh : ∀ w ∈ xs, HasShape w c t) :
    HasShape (average xs) c t ∧
      ∀ i, i < c → ∀ j, j < t →
        entry (average xs) i j
          = (xs.map fun w => entry w i j).sum / (xs.length : ℚ) := by
  match xs with
  | [] => exact absurd rfl hne
  | w :: ws =>
    have hw : HasShape w c t := hsh w (List.mem_cons_self w ws)
    have hws : ∀ v ∈ ws, HasShape v c t :=
      fun u hu => hsh u (List.mem_cons_of_mem w hu)
    have hfold := foldl_matAdd_hasShape ws w hw hws
    constructor
    · exact matSMul_hasShape _ hfold
    · intro i hi j hj
      show entry (matSMul (1 / ((ws.length : ℚ) + 1)) (ws.foldl matAdd w)) i j = _
      rw [entry_matSMul _ hfold hi hj, entry_foldl_matAdd ws w hw hws hi hj]
      simp only [List.map_cons, List.sum_cons, List.length_cons]
      push_cast
      rw [one_div, inv_mul_eq_div]

/-- Witness for C1 at a concrete pair of 2 × 2 epochs. -/
theorem average_is_pointwise_mean_witness :
    HasShape (average [[[1, 2], [3, 4]], [[5, 6], [7, 8]]]) 2 2 ∧
      entry (average [[[1, 2], [3, 4]], [[5, 6], [7, 8]]]) 0 1 = 4 := by
  have h := average_is_pointwise_mean [[[1, 2], [3, 4]], [[5, 6], [7, 8]]] 2 2
    (by decide) (by decide)
  refine ⟨h.1, ?_⟩
  rw [h.2 0 (by decide) 1 (by decide)]
  norm_num [entry]

/-- Modelled from the spec: `combine_evoked` (MNE library code, not in the
repository) with a list of numeric weights — the pointwise weighted sum of a
list of equally-shaped evokeds, used in the chapters with weights `[1, -1]`
for the difference wave. -/
def combine_evoked : List Mat → List ℚ → Mat
  | [e], q :: _ => matSMul q e
  | e :: es, q :: qs => matAdd (matSMul q e) (combine_evoked es qs)
  | _, _ => []

/-- Modelled from the spec: `combine_evoked(..., weights equal)` (MNE library
code, not in the repository) — each of the `n` evokeds enters with weight
`1 / n`, giving the grand average. -/
def combine_evoked_equal (es : List Mat) : Mat :=
  combine_evoked es (List.replicate es.length (1 / (es.length : ℚ)))

lemma combine_evoked_hasShape {c t : ℕ} (es : List Mat) (ws : List ℚ)
    (hne : es ≠ []) (hlen : ws.length = es.length)
    (hsh : ∀ e ∈ es, HasShape e c t) :
    HasShape (combine_evoked es ws) c t := by
  induction es generalizing ws with
  | nil => exact absurd rfl hne
  | cons e es ih =>
    match ws with
    | [] => simp at hlen
    | q :: qs =>
      match es, qs with
      | [], _ =>
        show HasShape (matSMul q e) c t
        exact matSMul_hasShape q (hsh e (List.mem_cons_self e []))
      | e2 :: es2, [] => simp at hlen
      | e2 :: es2, q2 :: qs2 =>
        show HasShape
          (matAdd (matSMul q e) (combine_evoked (e2 :: es2) (q2 :: qs2))) c t
        refine matAdd_hasShape
          (matSMul_hasShape q (hsh e (List.mem_cons_self e _))) ?_
        exact ih (q2 :: qs2) (by simp) (by simpa using hlen)
          fun u hu => hsh u (List.mem_cons_of_mem e hu)

lemma entry_combine_evoked {c t i j : ℕ} (es : List Mat) (ws : List ℚ)
    (hne : es ≠ []) (hlen : ws.length = es.length)
    (hsh : ∀ e ∈ es, HasShape e c t) (hi : i < c) (hj : j < t) :
    entry (combine_evoked es ws) i j
      = (List.zipWith (fun q e => q * entry e i j) ws es).sum := by
  induction es generalizing ws with
  | nil => exact absurd rfl hne
  | cons e es ih =>
    match ws with
    | [] => simp at hlen
    | q :: qs =>
      match es, qs with
      | [], _ =>
        show entry (matSMul q e) i j = _
        rw [entry_matSMul q (hsh e (List.mem_cons_self e [])) hi hj]
        simp
      | e2 :: es2, [] => simp at hlen
      | e2 :: es2, q2 :: qs2 =>
        have hsh2 : ∀ u ∈ e2 :: es2, HasShape u c t :=
          fun u hu => hsh u (List.mem_cons_of_mem e hu)
        have hlen2 : (q2 :: qs2).length = (e2 :: es2).length := by
          simpa using hlen
        show entry
          (matAdd (matSMul q e) (combine_evoked (e2 :: es2) (q2 :: qs2))) i j = _
        rw [entry_matAdd (matSMul_hasShape q (hsh e (List.mem_cons_self e _)))
          (combine_evoked_hasShape _ _ (by simp) hlen2 hsh2) hi hj,
          entry_matSMul q (hsh e (List.mem_cons_self e _)) hi hj,
          ih _ (by simp) hlen2 hsh2]
        simp

lemma mem_pair_hasShape {a b : Mat} {c t : ℕ} (ha : HasShape a c t)
    (hb : HasShape b c t) : ∀ e ∈ [a, b], HasShape e c t := by
  intro e he
  rcases List.mem_pair.mp he with h | h <;> subst h <;> assumption

lemma entry_diff_wave {a b : Mat} {c t : ℕ} (ha : HasShape a c t)
    (hb : HasShape b c t) {i j : ℕ} (hi : i < c) (hj : j < t) :
    entry (combine_evoked [a, b] [1, -1]) i j = entry a i j - entry b i j := by
  rw [entry_combine_evoked [a, b] [1, -1] (by simp) rfl
    (mem_pair_hasShape ha hb) hi hj]
  simp only [List.zipWith_cons_cons, List.zipWith_nil_right,
    List.sum_cons, List.sum_nil]
  ring

/-- **C2.** Combining two equally-shaped evokeds with weights `[1, -1]` (the
difference wave) yields an evoked of the same shape whose value at every
channel and timepoint is the first evoked's value minus the second's. -/
theorem combine_evoked_diff_wave (a b : Mat) (c t : ℕ)
    (ha : HasShape a c t) (hb : HasShape b c t) :
    HasShape (combine_evoked [a, b] [1, -1]) c t ∧
      ∀ i, i < c → ∀ j, j < t →
        entry (combine_evoked [a, b] [1, -1]) i j
          = entry a i j - entry b i j := by
  constructor
  · exact combine_evoked_hasShape [a, b] [1, -1] (by simp) rfl
      (mem_pair_hasShape ha hb)
  · intro i hi j hj
    exact entry_diff_wave ha hb hi hj

/-- Witness for C2 at two concrete 1 × 2 evokeds. -/
theorem combine_evoked_diff_wave_witness :
    HasShape (combine_evoked [[[5, 7]], [[2, 3]]] [1, -1]) 1 2 ∧
      entry (combine_evoked [[[5, 7]], [[2, 3]]] [1, -1]) 0 1 = 4 := by
  have h := combine_evoked_diff_wave [[5, 7]] [[2, 3]] 1 2 (by decide) (by decide)
  refine ⟨h.1, ?_⟩
  rw [h.2 0 (by decide) 1 (by decide)]
  norm_num [entry]

lemma zipWith_replicate_length_left {α β γ : Type} (f : α → β → γ) (a : α) :
    ∀ l : List β, List.zipWith f (List.replicate l.length a) l = l.map (f a)
  | [] => rfl
  | b :: l => by
    simp only [List.length_cons, List.replicate_succ, List.zipWith_cons_cons,
      List.map_cons, zipWith_replicate_length_left f a l]

/-- **C3.** Combining a non-empty list of `n` equally-shaped per-participant
evokeds with equal weights (the grand average) yields an evoked of the same
shape whose value at every channel and timepoint is the arithmetic mean of
the `n` participants' values there. -/
theorem grand_average_is_mean (es : List Mat) (c t : ℕ) (hne : es ≠ [])
    (hsh : ∀ e ∈ es, HasShape e c t) :
    HasShape (combine_evoked_equal es) c t ∧
      ∀ i, i < c → ∀ j, j < t →
        entry (combine_evoked_equal es) i j
          = (es.map fun e => entry e i j).sum / (es.length : ℚ) := by
  constructor
  · exact combine_evoked_hasShape es _ hne (by simp) hsh
  · intro i hi j hj
    rw [show combine_evoked_equal es
        = combine_evoked es (List.replicate es.length (1 / (es.length : ℚ)))
        from rfl,
      entry_combine_evoked es _ hne (by simp) hsh hi hj,
      zipWith_replicate_length_left]
    rw [List.sum_map_mul_left, one_div, inv_mul_eq_div]

/-- Witness for C3 at three concrete 1 × 1 per-participant evokeds. -/
theorem grand_average_is_mean_witness :
    HasShape (combine_evoked_equal [[[3]], [[4]], [[8]]]) 1 1 ∧
      entry (combine_evoked_equal [[[3]], [[4]], [[8]]]) 0 0 = 5 := by
  have h := grand_average_is_mean [[[3]], [[4]], [[8]]] 1 1 (by decide) (by decide)
  refine ⟨h.1, ?_⟩
  rw [h.2 0 (by decide) 0 (by decide)]
  norm_num [entry]

/-- Largest sample of a channel (0 for an empty channel), as numpy computes
a running maximum. -/
def listMax : List ℚ → ℚ
  | [] => 0
  | x :: xs => xs.foldl max x

/-- Smallest sample of a channel (0 for an empty channel). -/
def listMin : List ℚ → ℚ
  | [] => 0
  | x :: xs => xs.foldl min x

/-- Modelled from the spec: the per-window acceptance test of peak-to-peak
rejection (`Epochs.drop_bad({'eeg': r})`, and equivalently the
`reject={'eeg': r}` argument of the `Epochs` constructor; MNE library code,
not in the repository) — a window passes iff on every channel the
peak-to-peak amplitude (max minus min over the window's timepoints) does not
exceed `r`. -/
def goodWindow (r : ℚ) (w : Mat) : Bool :=
  w.all fun ch => decide (listMax ch - listMin ch ≤ r)

/-- Modelled from the spec: `Epochs.drop_bad({'eeg': r})` — the epochs whose
windows all pass the peak-to-peak test are retained, in order and unchanged;
the rest are marked excluded (dropped from the collection). -/
def drop_bad (r : ℚ) (xs : List Mat) : List Mat :=
  xs.filter (goodWindow r)

lemma le_foldl_max (l : List ℚ) (a : ℚ) : a ≤ l.foldl max a := by
  induction l generalizing a with
  | nil => exact le_refl a
  | cons b l ih => exact le_trans (le_max_left a b) (ih (max a b))

lemma mem_le_foldl_max (l : List ℚ) (a : ℚ) : ∀ x ∈ l, x ≤ l.foldl max a := by
  induction l generalizing a with
  | nil => intro x hx; simp at hx
  | cons b l ih =>
    intro x hx
    rw [List.foldl_cons]
    rcases List.mem_cons.mp hx with h | h
    · subst h
      exact le_trans (le_max_right a x) (le_foldl_max l (max a x))
    · exact ih (max a b) x h

lemma foldl_max_mem (l : List ℚ) (a : ℚ) :
    l.foldl max a = a ∨ l.foldl max a ∈ l := by
  induction l generalizing a with
  | nil => exact Or.inl rfl
  | cons b l ih =>
    rcases ih (max a b) with h | h
    · rcases max_choice a b with hm | hm
      · exact Or.inl (by rw [List.foldl_cons, h, hm])
      · exact Or.inr (by rw [List.foldl_cons, h, hm]; exact List.mem_cons_self b l)
    · exact Or.inr (List.mem_cons_of_mem b h)

lemma foldl_min_le (l : List ℚ) (a : ℚ) : l.foldl min a ≤ a := by
  induction l generalizing a with
  | nil => exact le_refl a
  | cons b l ih => exact le_trans (ih (min a b)) (min_le_left a b)

lemma foldl_min_le_mem (l : List ℚ) (a : ℚ) : ∀ x ∈ l, l.foldl min a ≤ x := by
  induction l generalizing a with
  | nil => intro x hx; simp at hx
  | cons b l ih =>
    intro x hx
    rw [List.foldl_cons]
    rcases List.mem_cons.mp hx with h | h
    · subst h
      exact le_trans (foldl_min_le l (min a x)) (min_le_right a x)
    · exact ih (min a b) x h

lemma foldl_min_mem (l : List ℚ) (a : ℚ) :
    l.foldl min a = a ∨ l.foldl min a ∈ l := by
  induction l generalizing a with
  | nil => exact Or.inl rfl
  | cons b l ih =>
    rcases ih (min a b) with h | h
    · rcases min_choice a b with hm | hm
      · exact Or.inl (by rw [List.foldl_cons, h, hm])
      · exact Or.inr (by rw [List.foldl_cons, h, hm]; exact List.mem_cons_self b l)
    · exact Or.inr (List.mem_cons_of_mem b h)

lemma le_listMax {l : List ℚ} {x : ℚ} (hx : x ∈ l) : x ≤ listMax l := by
  match l with
  | [] => simp at hx
  | b :: l =>
    rcases List.mem_cons.mp hx with h | h
    · exact h ▸ le_foldl_max l b
    · exact mem_le_foldl_max l b x h

lemma listMax_mem {l : List ℚ} (hne : l ≠ []) : listMax l ∈ l := by
  match l with
  | [] => exact absurd rfl hne
  | b :: l =>
    show List.foldl max b l ∈ b :: l
    rcases foldl_max_mem l b with h | h
    · rw [h]; exact List.mem_cons_self b l
    · exact List.mem_cons_of_mem b h

lemma listMin_le {l : List ℚ} {x : ℚ} (hx : x ∈ l) : listMin l ≤ x := by
  match l with
  | [] => simp at hx
  | b :: l =>
    rcases List.mem_cons.mp hx with h | h
    · exact h ▸ foldl_min_le l b
    · exact foldl_min_le_mem l b x h

lemma listMin_mem {l : List ℚ} (hne : l ≠ []) : listMin l ∈ l := by
  match l with
  | [] => exact absurd rfl hne
  | b :: l =>
    show List.foldl min b l ∈ b :: l
    rcases foldl_min_mem l b with h | h
    · rw [h]; exact List.mem_cons_self b l
    · exact List.mem_cons_of_mem b h

/-- **C4.** Rejection by peak-to-peak amplitude retains exactly those windows
whose peak-to-peak amplitude on every channel does not exceed the threshold
(equivalently, all pairwise sample differences within a channel are at most
the threshold), keeps them in their original order with their data unchanged
(the result is a sublist of the input), and excludes all the others. -/
theorem drop_bad_peak_to_peak (r : ℚ) (xs : List Mat)
    (hne : ∀ w ∈ xs, ∀ ch ∈ w, ch ≠ []) :
    (drop_bad r xs).Sublist xs ∧
      ∀ w ∈ xs,
        (w ∈ drop_bad r xs ↔ ∀ ch ∈ w, ∀ x ∈ ch, ∀ y ∈ ch, x - y ≤ r) := by
  refine ⟨List.filter_sublist xs, ?_⟩
  intro w hw
  rw [drop_bad, List.mem_filter]
  constructor
  · rintro ⟨-, hgood⟩ ch hch x hx y hy
    rw [goodWindow, List.all_eq_true] at hgood
    have hptp : listMax ch - listMin ch ≤ r :=
      of_decide_eq_true (hgood ch hch)
    have h1 : x ≤ listMax ch := le_listMax hx
    have h2 : listMin ch ≤ y := listMin_le hy
    calc x - y ≤ listMax ch - listMin ch := by
          exact sub_le_sub h1 h2
      _ ≤ r := hptp
  · intro h
    refine ⟨hw, ?_⟩
    rw [goodWindow, List.all_eq_true]
    intro ch hch
    refine decide_eq_true ?_
    have hchne : ch ≠ [] := hne w hw ch hch
    exact h ch hch (listMax ch) (listMax_mem hchne) (listMin ch)
      (listMin_mem hchne)

/-- Witness for C4: with threshold 3, the window `[[0, 2]]` (peak-to-peak 2)
is retained and the window `[[0, 5]]` (peak-to-peak 5) is excluded. -/
theorem drop_bad_peak_to_peak_witness :
    [[0, 2]] ∈ drop_bad 3 [[[0, 2]], [[0, 5]]] ∧
      [[0, 5]] ∉ drop_bad 3 [[[0, 2]], [[0, 5]]] := by
  have h := drop_bad_peak_to_peak 3 [[[0, 2]], [[0, 5]]] (by decide)
  constructor
  · refine (h.2 [[0, 2]] (by simp)).mpr ?_
    intro ch hch x hx y hy
    simp only [List.mem_singleton] at hch
    subst hch
    rcases List.mem_pair.mp hx with rfl | rfl <;>
      rcases List.mem_pair.mp hy with rfl | rfl <;> norm_num
  · intro hmem
    have h5 := (h.2 [[0, 5]] (by simp)).mp hmem [0, 5] (by simp)
      5 (by simp) 0 (by simp)
    norm_num at h5

/-- One row of a 3-column events array: (sample, duration, event code). -/
abbrev EventRow : Type := ℤ × ℤ × ℤ

/-- Modelled from the spec: `mne.merge_events` (MNE library code, not in the
repository) — rows whose event code lies in `ids` get the code `newId`; every
other entry of every row is unchanged, and the rows keep their order. -/
def merge_events (events : List EventRow) (ids : List ℤ) (newId : ℤ) :
    List EventRow :=
  events.map fun e => if e.2.2 ∈ ids then (e.1, e.2.1, newId) else e

/-- Python `range(a, b)`: the integers `a, …, b - 1` in order. -/
def pyRange (a b : ℤ) : List ℤ :=
  (List.range (b - a).toNat).map fun k : ℕ => a + (k : ℤ)

/-- The two `merge_events` calls of the epoching, averaging and pipeline
chapters: codes `range(1, 41)` become 1 (face), then codes `range(41, 81)`
become 2 (car). -/
def mergedEvents (events : List EventRow) : List EventRow :=
  merge_events (merge_events events (pyRange 1 41) 1) (pyRange 41 81) 2

lemma mem_pyRange {a b z : ℤ} : z ∈ pyRange a b ↔ a ≤ z ∧ z < b := by
  unfold pyRange
  rw [List.mem_map]
  constructor
  · rintro ⟨k, hk, rfl⟩
    rw [List.mem_range] at hk
    omega
  · rintro ⟨h1, h2⟩
    exact ⟨(z - a).toNat, List.mem_range.mpr (by omega), by omega⟩

lemma merge_events_length (events : List EventRow) (ids : List ℤ)
    (newId : ℤ) : (merge_events events ids newId).length = events.length := by
  simp [merge_events]

lemma merge_events_getD (events : List EventRow) (ids : List ℤ) (newId : ℤ)
    {i : ℕ} (hi : i < events.length) :
    (merge_events events ids newId).getD i (0, 0, 0)
      = (if (events.getD i (0, 0, 0)).2.2 ∈ ids
          then ((events.getD i (0, 0, 0)).1, (events.getD i (0, 0, 0)).2.1,
            newId)
          else events.getD i (0, 0, 0)) := by
  have hi2 : i < (merge_events events ids newId).length := by
    rw [merge_events_length]; exact hi
  rw [List.getD_eq_getElem _ _ hi2, List.getD_eq_getElem _ _ hi]
  show (events.map _)[i] = _
  rw [List.getElem_map]

/-- **C9.** A `merge_events` call preserves the row count and, row by row,
the sample and duration entries, rewriting only the codes that lie in `ids`;
the two calls used by the scripts map every code in 1..40 to 1, every code in
41..80 to 2, and leave all other codes (and all other columns) unchanged. -/
theorem merge_events_frame_effect (events : List EventRow) (ids : List ℤ)
    (newId : ℤ) :
    ((merge_events events ids newId).length = events.length ∧
      ∀ i, i < events.length →
        (merge_events events ids newId).getD i (0, 0, 0)
          = ((events.getD i (0, 0, 0)).1, (events.getD i (0, 0, 0)).2.1,
              if (events.getD i (0, 0, 0)).2.2 ∈ ids then newId
              else (events.getD i (0, 0, 0)).2.2)) ∧
    (mergedEvents events).length = events.length ∧
      ∀ i, i < events.length →
        (mergedEvents events).getD i (0, 0, 0)
          = ((events.getD i (0, 0, 0)).1, (events.getD i (0, 0, 0)).2.1,
              if 1 ≤ (events.getD i (0, 0, 0)).2.2 ∧
                  (events.getD i (0, 0, 0)).2.2 ≤ 40 then 1
              else if 41 ≤ (events.getD i (0, 0, 0)).2.2 ∧
                  (events.getD i (0, 0, 0)).2.2 ≤ 80 then 2
              else (events.getD i (0, 0, 0)).2.2) := by
  have single : ∀ (evs : List EventRow) (ids2 : List ℤ) (nid : ℤ) (i : ℕ),
      i < evs.length →
      (merge_events evs ids2 nid).getD i (0, 0, 0)
        = ((evs.getD i (0, 0, 0)).1, (evs.getD i (0, 0, 0)).2.1,
            if (evs.getD i (0, 0, 0)).2.2 ∈ ids2 then nid
            else (evs.getD i (0, 0, 0)).2.2) := by
    intro evs ids2 nid i hi
    rw [merge_events_getD evs ids2 nid hi]
    rcases hE : evs.getD i (0, 0, 0) with ⟨s, d, code⟩
    dsimp only
    by_cases h : code ∈ ids2
    · rw [if_pos h, if_pos h]
    · rw [if_neg h, if_neg h]
  refine ⟨⟨merge_events_length events ids newId, fun i hi => single events ids newId i hi⟩, ?_, ?_⟩
  · show (merge_events _ _ _).length = _
    rw [merge_events_length, merge_events_length]
  · intro i hi
    have hi1 : i < (merge_events events (pyRange 1 41) 1).length := by
      rw [merge_events_length]; exact hi
    show (merge_events (merge_events events (pyRange 1 41) 1)
      (pyRange 41 81) 2).getD i (0, 0, 0) = _
    rw [single _ _ _ i hi1, single _ _ _ i hi]
    rcases hE : events.getD i (0, 0, 0) with ⟨s, d, code⟩
    dsimp only
    simp only [mem_pyRange]
    by_cases h1 : (1 : ℤ) ≤ code ∧ code < 41
    · rw [if_pos h1]
      rw [if_neg (by omega : ¬((41 : ℤ) ≤ 1 ∧ (1 : ℤ) < 81)),
        if_pos (by omega : (1 : ℤ) ≤ code ∧ code ≤ 40)]
    · rw [if_neg h1]
      by_cases h2 : (41 : ℤ) ≤ code ∧ code < 81
      · rw [if_pos h2, if_neg (by omega : ¬((1 : ℤ) ≤ code ∧ code ≤ 40)),
          if_pos (by omega : (41 : ℤ) ≤ code ∧ code ≤ 80)]
      · rw [if_neg h2, if_neg (by omega : ¬((1 : ℤ) ≤ code ∧ code ≤ 40)),
          if_neg (by omega : ¬((41 : ℤ) ≤ code ∧ code ≤ 80))]

/-- Witness for C9: on a concrete three-row events array with codes 5, 77 and
99, the merged codes are 1, 2 and 99, and samples and durations survive. -/
theorem merge_events_frame_effect_witness :
    (mergedEvents [(10, 0, 5), (20, 0, 77), (30, 1, 99)]).getD 1 (0, 0, 0)
        = (20, 0, 2) ∧
      (mergedEvents [(10, 0, 5), (20, 0, 77), (30, 1, 99)]).getD 2 (0, 0, 0)
        = (30, 1, 99) := by
  have h := merge_events_frame_effect [(10, 0, 5), (20, 0, 77), (30, 1, 99)]
    (pyRange 1 41) 1
  constructor
  · rw [h.2.2 1 (by decide)]
    decide
  · rw [h.2.2 2 (by decide)]
    decide

/-- Mean of a channel's baseline samples: with `tmin = -0.2` the interval
`(-0.2, 0.0)` covers the first `nb` samples of the epoch (0 when there are
none). -/
def baselineMean (nb : ℕ) (row : List ℚ) : ℚ :=
  (row.take nb).sum / ((row.take nb).length : ℚ)

/-- Modelled from the spec: `Epochs.apply_baseline((-0.2, 0.0))` (MNE library
code, not in the repository) — for each channel of an epoch, the mean over the
baseline samples is subtracted from every timepoint of that channel. -/
def apply_baseline (nb : ℕ) (epoch : Mat) : Mat :=
  epoch.map fun row => row.map fun x => x - baselineMean nb row

lemma sum_map_sub_const (l : List ℚ) (m : ℚ) :
    (l.map fun x => x - m).sum = l.sum - (l.length : ℚ) * m := by
  induction l with
  | nil => simp
  | cons x l ih =>
    simp only [List.map_cons, List.sum_cons, List.length_cons, ih]
    push_cast
    ring

lemma baselineMean_map_sub (nb : ℕ) (row : List ℚ) :
    baselineMean nb (row.map fun x => x - baselineMean nb row) = 0 := by
  by_cases hne : row.take nb = []
  · unfold baselineMean
    rw [← List.map_take, hne]
    simp
  · have hlen0 : (row.take nb).length ≠ 0 :=
      fun h => hne (List.length_eq_zero.mp h)
    have hlen : ((row.take nb).length : ℚ) ≠ 0 := by exact_mod_cast hlen0
    unfold baselineMean
    rw [← List.map_take, sum_map_sub_const, List.length_map]
    field_simp
    have hm : ((nb : ℚ) ⊓ (row.length : ℚ)) ≠ 0 := by
      rw [List.length_take] at hlen
      push_cast at hlen
      exact hlen
    exact Or.inl (by rw [mul_div_cancel_left₀ _ hm, sub_self])

/-- **C10.** Baseline correction subtracts each channel's baseline mean from
every timepoint, so afterwards every channel's baseline mean is zero whenever
the baseline interval contains at least one sample; consequently applying the
correction a second time with the same interval leaves the data unchanged
(here the idempotence holds even without the non-emptiness hypothesis). -/
theorem apply_baseline_zero_mean_idempotent (nb : ℕ) (epoch : Mat) :
    ((∀ row ∈ epoch, row.take nb ≠ []) →
        ∀ row ∈ apply_baseline nb epoch, baselineMean nb row = 0) ∧
      apply_baseline nb (apply_baseline nb epoch) = apply_baseline nb epoch := by
  constructor
  · intro _ row hrow
    rw [apply_baseline, List.mem_map] at hrow
    obtain ⟨r, -, hrow⟩ := hrow
    rw [← hrow]
    exact baselineMean_map_sub nb r
  · rw [apply_baseline, apply_baseline, List.map_map]
    refine List.map_congr_left fun row _ => ?_
    dsimp only [Function.comp]
    rw [baselineMean_map_sub nb row]
    simp

/-- Witness for C10 at a concrete epoch with 2 baseline samples per channel:
correcting `[[1, 3, 7]]` gives baseline mean 0, and a second application
changes nothing. -/
theorem apply_baseline_zero_mean_idempotent_witness :
    (∀ row ∈ ([[1, 3, 7]] : Mat), row.take 2 ≠ []) ∧
      (∀ row ∈ apply_baseline 2 [[1, 3, 7]], baselineMean 2 row = 0) ∧
      apply_baseline 2 (apply_baseline 2 [[1, 3, 7]]) =
        apply_baseline 2 [[1, 3, 7]] := by
  have h := apply_baseline_zero_mean_idempotent 2 [[1, 3, 7]]
  exact ⟨by decide, h.1 (by decide), h.2⟩

/-- One iteration of the pipeline chapter's per-participant loop body: the
participant's face evoked, car evoked, and their
`combine_evoked([face, car], weights=[1, -1])` difference wave are appended
to the three accumulator lists.  The external preprocessing, epoching and
averaging calls of the body are abstracted as `proc`, returning the
participant's two condition averages. -/
def loopBody {α : Type} (proc : α → Mat × Mat)
    (acc : List Mat × List Mat × List Mat) (input : α) :
    List Mat × List Mat × List Mat :=
  let ef := (proc input).1
  let ec := (proc input).2
  let ed := combine_evoked [ef, ec] [1, -1]
  (acc.1 ++ [ef], acc.2.1 ++ [ec], acc.2.2 ++ [ed])

/-- The pipeline chapter's custom loop: starting from the three empty lists
`evokeds_face`, `evokeds_car`, `evokeds_diff`, the body runs once per
(raw file, log file) pair. -/
def pipelineLoop {α : Type} (proc : α → Mat × Mat) (inputs : List α) :
    List Mat × List Mat × List Mat :=
  inputs.foldl (loopBody proc) ([], [], [])

lemma foldl_loopBody {α : Type} (proc : α → Mat × Mat) (inputs : List α)
    (acc : List Mat × List Mat × List Mat) :
    inputs.foldl (loopBody proc) acc
      = (acc.1 ++ inputs.map fun a => (proc a).1,
         acc.2.1 ++ inputs.map fun a => (proc a).2,
         acc.2.2 ++ inputs.map fun a =>
           combine_evoked [(proc a).1, (proc a).2] [1, -1]) := by
  induction inputs generalizing acc with
  | nil => simp
  | cons a as ih =>
    rw [List.foldl_cons, ih]
    simp [loopBody]

/-- **C5.** In the pipeline chapter's per-participant loop over N input
pairs, the body executes exactly once per pair: the three accumulator lists
end with exactly N entries in input order — the i-th face/car entries are the
i-th participant's averages and the i-th difference entry is their
`[1, -1]`-combination — and each difference entry equals the face evoked
minus the car evoked at every channel and timepoint. -/
theorem pipelineLoop_accumulates {α : Type} (proc : α → Mat × Mat)
    (inputs : List α) (c t : ℕ)
    (hsh : ∀ a ∈ inputs, HasShape (proc a).1 c t ∧ HasShape (proc a).2 c t) :
    ((pipelineLoop proc inputs).1.length = inputs.length ∧
      (pipelineLoop proc inputs).2.1.length = inputs.length ∧
      (pipelineLoop proc inputs).2.2.length = inputs.length) ∧
    ((pipelineLoop proc inputs).1 = (inputs.map fun a => (proc a).1) ∧
      (pipelineLoop proc inputs).2.1 = (inputs.map fun a => (proc a).2) ∧
      (pipelineLoop proc inputs).2.2 = (inputs.map fun a =>
        combine_evoked [(proc a).1, (proc a).2] [1, -1])) ∧
    ∀ a ∈ inputs, ∀ i, i < c → ∀ j, j < t →
      entry (combine_evoked [(proc a).1, (proc a).2] [1, -1]) i j
        = entry (proc a).1 i j - entry (proc a).2 i j := by
  have hfold := foldl_loopBody proc inputs ([], [], [])
  have h1 : (pipelineLoop proc inputs).1 = (inputs.map fun a => (proc a).1) := by
    rw [pipelineLoop, hfold]; simp
  have h2 : (pipelineLoop proc inputs).2.1
      = (inputs.map fun a => (proc a).2) := by
    rw [pipelineLoop, hfold]; simp
  have h3 : (pipelineLoop proc inputs).2.2 = (inputs.map fun a =>
      combine_evoked [(proc a).1, (proc a).2] [1, -1]) := by
    rw [pipelineLoop, hfold]; simp
  refine ⟨⟨by rw [h1]; simp, by rw [h2]; simp, by rw [h3]; simp⟩,
    ⟨h1, h2, h3⟩, ?_⟩
  intro a ha i hi j hj
  exact entry_diff_wave (hsh a ha).1 (hsh a ha).2 hi hj

/-- A concrete stand-in for the per-participant processing of the loop body,
used to witness C5. -/
def procExample (n : ℕ) : Mat × Mat := ([[(n : ℚ)]], [[1]])

/-- Witness for C5 at two concrete participants. -/
theorem pipelineLoop_accumulates_witness :
    (pipelineLoop procExample [0, 1]).2.2.length = 2 ∧
      entry (combine_evoked [(procExample 0).1, (procExample 0).2] [1, -1]) 0 0
        = entry (procExample 0).1 0 0 - entry (procExample 0).2 0 0 := by
  have h := pipelineLoop_accumulates procExample [0, 1] 1 1 (by decide)
  exact ⟨by rw [h.1.2.2]; rfl,
    h.2.2 0 (by decide) 0 (by decide) 0 (by decide)⟩

/-- The ten processing-step categories (a)–(j) of the spec: acquire sample
data, construct the continuous-signal object, frequency filtering, the ICA
blind-source-separation step (fit, artifact scoring, apply), re-referencing,
epoching, peak-to-peak rejection, averaging, differencing, plotting. -/
inductive Step : Type
  | acquire
  | construct
  | filterStep
  | icaStep
  | rerefStep
  | epochStep
  | rejectStep
  | averageStep
  | differenceStep
  | plotStep
  deriving DecidableEq

/-- The position of each step in the spec's fixed order (a)–(j). -/
def stepRank : Step → ℕ
  | .acquire => 0
  | .construct => 1
  | .filterStep => 2
  | .icaStep => 3
  | .rerefStep => 4
  | .epochStep => 5
  | .rejectStep => 6
  | .averageStep => 7
  | .differenceStep => 8
  | .plotStep => 9

/-- Whether a trace of calls performs its steps in the spec's fixed order:
every call's rank is at least the preceding call's. -/
def ranksOrdered : List Step → Bool
  | [] => true
  | [_] => true
  | a :: b :: rest => decide (stepRank a ≤ stepRank b) && ranksOrdered (b :: rest)

/-- A trace with the plotting calls removed. -/
def nonPlotSteps (tr : List Step) : List Step :=
  tr.filter fun s => decide (s ≠ Step.plotStep)

/-- Transcribed trace of the Python chapter (`1-python.ipynb`): arithmetic,
variables, containers, loops and functions only — none of the ten processing
steps occurs. -/
def pythonTrace : List Step := []

/-- Transcribed trace of the preprocessing chapter (cell by cell:
`get_erpcore`; `read_raw`; `raw.plot`; `plot_sensors`; `filter` (high-pass)
and plot; `filter` (low-pass) and plot; `filter` (ICA copy), `ica.fit` and
`plot_components`; `find_bads_eog` and `plot_scores`; `ica.apply` and plot;
`set_eeg_reference` and plot). -/
def preprocessingTrace : List Step :=
  [.acquire, .construct, .plotStep, .plotStep, .filterStep, .plotStep,
    .filterStep, .plotStep, .filterStep, .icaStep, .plotStep, .icaStep,
    .plotStep, .icaStep, .plotStep, .rerefStep, .plotStep]

/-- Transcribed trace of the epoching chapter (`3-epoching.ipynb`): the
recap preprocessing cell (`get_erpcore`, `read_raw`, two `filter` calls,
`ica.fit`, `find_bads_eog`, `ica.apply`, `set_eeg_reference`), then
`Epochs(...)`, two plots, `apply_baseline` with a plot, `drop_bad`, and a
final plot. -/
def epochingTrace : List Step :=
  [.acquire, .construct, .filterStep, .filterStep, .icaStep, .icaStep,
    .icaStep, .rerefStep, .epochStep, .plotStep, .plotStep, .plotStep,
    .rejectStep, .plotStep]

/-- Transcribed trace of the averaging chapter (`4-averaging.ipynb`): recap
preprocessing, `Epochs(..., reject={'eeg': 100e-6})` (epoching plus
rejection), `epochs.average()`, two plots, the per-condition averages, a
comparison plot, `combine_evoked(..., weights=[1, -1])` with its plot, a
topography plot and a joint plot. -/
def averagingTrace : List Step :=
  [.acquire, .construct, .filterStep, .filterStep, .icaStep, .icaStep,
    .icaStep, .rerefStep, .epochStep, .rejectStep, .averageStep, .plotStep,
    .plotStep, .averageStep, .averageStep, .plotStep, .differenceStep,
    .plotStep, .plotStep, .plotStep]

/-- Transcribed trace of the pipeline chapter's per-participant processing
(`get_erpcore` before the loop, then one pass of the loop body: `read_raw`,
`filter`, the ICA copy `filter`, `ica.fit`, `find_bads_eog`, `ica.apply`,
`set_eeg_reference`, `Epochs(...)`, `drop_bad`, the two condition averages
and the `combine_evoked(..., [1, -1])` difference). -/
def pipelineTrace : List Step :=
  [.acquire, .construct, .filterStep, .filterStep, .icaStep, .icaStep,
    .icaStep, .rerefStep, .epochStep, .rejectStep, .averageStep,
    .averageStep, .differenceStep]

/-- Transcribed trace of the statistics chapter: `get_erpcore`, the single
external `group_pipeline` black-box call (not one of the chapter's own ten
steps), then plotting and R statistics. -/
def statisticsTrace : List Step := [.acquire, .plotStep]

/-- The transcribed traces of all chapter scripts. -/
def chapterTraces : List (List Step) :=
  [pythonTrace, preprocessingTrace, epochingTrace, averagingTrace,
    pipelineTrace, statisticsTrace]

/-- **C6 counterexample.** The claim that every chapter performs the steps
in the fixed order (a)–(j) with plotting last is false on the transcribed
preprocessing chapter, which plots the raw signal before filtering, ICA and
re-referencing. -/
theorem preprocessing_trace_not_claim_ordered :
    preprocessingTrace ∈ chapterTraces ∧
      ranksOrdered preprocessingTrace = false := by
  exact ⟨by decide, rfl⟩

/-- **C6 (amended).** In every chapter's per-participant processing
sequence, the non-plot steps occur in the spec's fixed order
acquire ≤ construct ≤ filter ≤ ICA ≤ re-reference ≤ epoch ≤ reject ≤
average ≤ difference; in particular filtering always precedes ICA, ICA
precedes re-referencing, and re-referencing precedes epoching.  Plotting,
however, is interleaved throughout rather than last. -/
theorem chapter_steps_ordered_without_plot :
    (chapterTraces.all fun tr => ranksOrdered (nonPlotSteps tr)) = true := by
  rfl

/-- Control-flow summary of one loop in a chapter script: whether it
iterates over the participants' input files, whether its body contains an
if/else, and whether any of its control conditions depends on the EEG
data. -/
structure LoopInfo : Type where
  overParticipants : Bool
  hasConditional : Bool
  dependsOnEEGData : Bool
  deriving DecidableEq

/-- Control-flow summary of a chapter script: its loops in order of
appearance, the number of if/else statements outside any loop, and whether
any try/except handler appears. -/
structure ChapterControl : Type where
  loops : List LoopInfo
  ifsOutsideLoops : ℕ
  handlesErrors : Bool
  deriving DecidableEq

/-- Transcribed control flow of the Python chapter: the two greeting `for`
loops over a hard-coded list of names; no conditionals, no handlers. -/
def pythonControl : ChapterControl :=
  ⟨[⟨false, false, false⟩, ⟨false, false, false⟩], 0, false⟩

/-- Transcribed control flow of the preprocessing chapter: straight-line. -/
def preprocessingControl : ChapterControl := ⟨[], 0, false⟩

/-- Transcribed control flow of the epoching chapter: the EOG-channel setup
loop over three hard-coded channel triples, and the event-dictionary loop
`for trigger in range(1, 81)` whose body branches on `trigger <= 40` — a
static literal, not the data. -/
def epochingControl : ChapterControl :=
  ⟨[⟨false, false, false⟩, ⟨false, true, false⟩], 0, false⟩

/-- Transcribed control flow of the averaging chapter: the EOG-channel setup
loop only. -/
def averagingControl : ChapterControl := ⟨[⟨false, false, false⟩], 0, false⟩

/-- Transcribed control flow of the pipeline chapter: the single
per-participant loop over the zipped raw/log file lists. -/
def pipelineControl : ChapterControl := ⟨[⟨true, false, false⟩], 0, false⟩

/-- Transcribed control flow of the statistics chapter: straight-line. -/
def statisticsControl : ChapterControl := ⟨[], 0, false⟩

/-- The transcribed control flow of all chapter scripts. -/
def chapterControls : List ChapterControl :=
  [pythonControl, preprocessingControl, epochingControl, averagingControl,
    pipelineControl, statisticsControl]

/-- The control flow the claim asserts: every chapter is straight-line, with
the pipeline chapter's single per-participant loop as the only loop and no
conditionals anywhere. -/
def claimedControlFlow : Bool :=
  decide (pythonControl.loops = []) &&
    decide (preprocessingControl.loops = []) &&
    decide (epochingControl.loops = []) &&
    decide (averagingControl.loops = []) &&
    decide (statisticsControl.loops = []) &&
    decide (pipelineControl.loops = [⟨true, false, false⟩]) &&
    chapterControls.all fun c =>
      (c.ifsOutsideLoops == 0) && c.loops.all fun l => !l.hasConditional

/-- **C7 counterexample.** The transcribed chapters are not branch-free
outside the pipeline loop: the Python chapter has two teaching loops, the
epoching and averaging chapters have the EOG-setup loop, and the epoching
chapter's event-dictionary loop contains an if/else. -/
theorem control_flow_claim_false : claimedControlFlow = false := by
  rfl

/-- **C7 (amended).** Beyond the pipeline chapter's per-participant loop the
chapters contain only a fixed set of loops over hard-coded literals (the
Python chapter's greeting loops, the EOG-setup loops, the event-dictionary
loop — the last containing the only if/else): no control condition depends
on the EEG data, no if/else occurs outside a loop, and exactly one loop in
the whole repository iterates over participants, the pipeline chapter's. -/
theorem control_flow_data_independent :
    (chapterControls.all fun c =>
        c.loops.all fun l => !l.dependsOnEEGData) = true ∧
      (chapterControls.all fun c => c.ifsOutsideLoops == 0) = true ∧
      ((chapterControls.map fun c =>
        (c.loops.filter fun l => l.overParticipants).length).sum = 1) ∧
      (pipelineControl.loops.filter fun l => l.overParticipants).length = 1 ∧
      pipelineControl ∈ chapterControls := by
  exact ⟨rfl, rfl, rfl, rfl, by decide⟩

/-- A value of the Python chapter's container cells: an integer or a
string. -/
inductive PyVal : Type
  | int : ℤ → PyVal
  | str : String → PyVal
  deriving DecidableEq

/-- A Python sequence container: a mutable list or an immutable tuple. -/
inductive PyContainer : Type
  | list : List PyVal → PyContainer
  | tuple : List PyVal → PyContainer
  deriving DecidableEq

/-- The errors the Python chapter's container cells can raise. -/
inductive PyError : Type
  | typeError
  | indexError
  deriving DecidableEq

/-- Modelled from the spec: Python item assignment `c[i] = v` (language
semantics, not repository code) — an in-bounds assignment succeeds on a
list and raises `TypeError` on a tuple. -/
def setItem : PyContainer → ℕ → PyVal → Except PyError PyContainer
  | .list xs, i, v =>
      if i < xs.length then .ok (.list (xs.set i v)) else .error .indexError
  | .tuple _, _, _ => .error .typeError

/-- The Python chapter's tuple cell: `my_var = (1, 2, 3)` followed by the
assignment `my_var[2] = ...` — returns the final value of `my_var` together
with the raised error, if any. -/
def tupleCell : PyContainer × Option PyError :=
  let myVar : PyContainer := .tuple [.int 1, .int 2, .int 3]
  match setItem myVar 2 (.str ("Hooray!")) with
  | .ok c => (c, none)
  | .error e => (myVar, some e)

/-- **C8.** No chapter script installs an exception handler, so library
errors propagate; the one demonstrated expected failure — assigning to an
element of the tuple `(1, 2, 3)` — raises a `TypeError` and leaves the tuple
unchanged, while the same assignment on the list `[1, 2, 3]` succeeds. -/
theorem no_error_handling_and_tuple_unchanged :
    (chapterControls.all fun c => !c.handlesErrors) = true ∧
      tupleCell = (.tuple [.int 1, .int 2, .int 3], some .typeError) ∧
      setItem (.list [.int 1, .int 2, .int 3]) 2 (.str ("Hooray!"))
        = .ok (.list [.int 1, .int 2, .str ("Hooray!")]) := by
  exact ⟨rfl, rfl, rfl⟩

end IntroToEEG

